import Mathlib

/-!
Shallow embedding of `src/pairwise.py` (repository `paiwise`): the pairwise
test-suite generator `generate_pairwise_tests` and the definitions it is built
from.  Parameter names are strings, values are modelled as naturals (the code
treats values as opaque comparable data; the value component of the tuple
comparison in `tuple(sorted(...))` is only reached when the two parameter
names coincide, which never happens at any call site).  The Python `while`
loop is modelled with explicit fuel: `GenResult.outOfFuel` means the loop is
still running after the given number of iterations, so divergence of the
Python program corresponds to returning `outOfFuel` for every fuel value.
-/

namespace Paiwise

abbrev PName := String
abbrev Value := Nat

/-- A `(parameter name, value)` assignment, Python's `(name, value)` tuple. -/
abbrev PV := PName × Value

/-- A canonical pair: Python's `tuple(sorted(((p1, v1), (p2, v2))))`. -/
abbrev Pair := PV × PV

/-- The input mapping: Python's insertion-ordered `Dict[str, List[str]]`,
as an association list. -/
abbrev Params := List (PName × List Value)

/-- A test case under construction or finished: Python's insertion-ordered
`Dict[str, str]`, as the list of assignments in insertion order. -/
abbrev TestCase := List PV

/-- Python string `<`: lexicographic comparison of the code-point
sequences, a shorter strict prefix comparing less. -/
def dataLt : List Char → List Char → Bool
  | [], [] => false
  | [], _ :: _ => true
  | _ :: _, [] => false
  | a :: s, b :: t =>
      if a.toNat < b.toNat then true
      else if b.toNat < a.toNat then false
      else dataLt s t

/-- Python tuple `<` on `(name, value)` tuples: lexicographic, names first. -/
def pvLt (x y : PV) : Bool :=
  dataLt x.1.data y.1.data || (decide (x.1 = y.1) && decide (x.2 < y.2))

/-- `tuple(sorted((x, y)))` for a two-element tuple: Python's stable sort
keeps `[x, y]` unless `y < x`. Used at `src/pairwise.py` lines 45, 60, 72. -/
def canonPair (x y : PV) : Pair :=
  if pvLt y x then (y, x) else (x, y)

/-- The pairs contributed by one ordered pair of distinct parameters:
the two inner `for` loops of `src/pairwise.py` lines 43-46. -/
def pairsBetween (n1 : PName) (d1 : List Value) (n2 : PName) (d2 : List Value) :
    List Pair :=
  d1.flatMap fun v1 => d2.map fun v2 => canonPair (n1, v1) (n2, v2)

/-- The master set `uncovered_pairs` of `src/pairwise.py` lines 40-46:
`itertools.combinations(param_names, 2)` enumerates each earlier entry
against each later one. -/
def buildUniverse : Params → List Pair
  | [] => []
  | (n, d) :: rest =>
      (rest.flatMap fun e => pairsBetween n d e.1 e.2) ++ buildUniverse rest

/-- `sorted(parameters, key=lambda p: len(parameters[p]), reverse=True)`
(line 50): a stable sort by descending domain size.  Python's sort is stable
and insertion sort is stable, and two stable sorts for the same total
preorder agree, so this is extensionally the Python result. -/
def sortedParams (ps : Params) : Params :=
  List.insertionSort (fun e1 e2 => e2.2.length ≤ e1.2.length) ps

/-- `newly_covered_count` for one candidate value (lines 58-62): how many
pairs formed with the already-assigned parameters are still uncovered. -/
def countNew (unc : List Pair) (n : PName) (v : Value) : TestCase → Nat
  | [] => 0
  | e :: tc => (if canonPair (n, v) e ∈ unc then 1 else 0) + countNew unc n v tc

/-- The inner `for value in parameters[param_name]` loop of lines 55-65,
carrying `best_value` and `max_covered` (which starts at `-1`). -/
def selectGo (score : Value → Nat) :
    List Value → Option Value → Int → Option Value × Int
  | [], best, maxC => (best, maxC)
  | v :: rest, best, maxC =>
      if (score v : Int) > maxC then selectGo score rest (some v) (score v)
      else selectGo score rest best maxC

/-- Lines 55-67: pick the best value for `n`; `none` models the Python
`IndexError` raised by `parameters[param_name][0]` on an empty domain. -/
def selectValue (unc : List Pair) (n : PName) (dom : List Value)
    (tc : TestCase) : Option Value :=
  match (selectGo (fun v => countNew unc n v tc) dom none (-1)).1 with
  | some v => some v
  | none => dom.head?

/-- The `for param_name in sorted_params` loop of lines 54-68, building
`current_test_case` by appending one assignment per parameter. -/
def buildCase (unc : List Pair) : Params → TestCase → Option TestCase
  | [], tc => some tc
  | (n, dom) :: rest, tc =>
      match selectValue unc n dom tc with
      | none => none
      | some v => buildCase unc rest (tc ++ [(n, v)])

/-- `pairs_in_new_case` (lines 70-73): all canonical pairs induced by a
completed test case. -/
def pairsOfCase : TestCase → List Pair
  | [] => []
  | e :: tc => (tc.map fun e2 => canonPair e e2) ++ pairsOfCase tc

/-- Outcome of the generation loop under a fuel bound. -/
inductive GenResult where
  | ok (suite : List TestCase)
  | indexError
  | outOfFuel
  deriving DecidableEq

/-- The `while uncovered_pairs` loop of lines 52-74: build a case, append it,
subtract the pairs it induces.  `outOfFuel` means the loop is still running
after `fuel` iterations. -/
def genLoop (sorted : Params) : Nat → List Pair → List TestCase → GenResult
  | 0, unc, suite => if unc.isEmpty then .ok suite else .outOfFuel
  | fuel + 1, unc, suite =>
      if unc.isEmpty then .ok suite
      else
        match buildCase unc sorted [] with
        | none => .indexError
        | some tc =>
            genLoop sorted fuel
              (unc.filter fun p => !decide (p ∈ pairsOfCase tc)) (suite ++ [tc])

/-- `generate_pairwise_tests` (lines 21-75).  The edge-case block of lines
32-37 (`len(parameters) < 2`) is the zero- and one-parameter patterns; with
two or more parameters the universe is built and the greedy loop runs. -/
def generate_pairwise_tests : Params → Nat → GenResult
  | [], _ => .ok []
  | [(n, d)], _ => .ok (d.map fun v => [(n, v)])
  | e1 :: e2 :: rest, fuel =>
      genLoop (sortedParams (e1 :: e2 :: rest)) fuel
        (buildUniverse (e1 :: e2 :: rest)) []

/-- The effect of one loop iteration on the uncovered set (the loop body's
update at line 74); identity when the iteration would raise.  Used to state
which uncovered set the loop reaches after a given number of iterations. -/
def runUnc (sorted : Params) : Nat → List Pair → List Pair
  | 0, unc => unc
  | k + 1, unc =>
      runUnc sorted k
        (match buildCase unc sorted [] with
         | none => unc
         | some tc => unc.filter fun p => !decide (p ∈ pairsOfCase tc))

/-- The concrete input of `src/tests/test_pairwise.py`:
`a:[0,1], b:[0,1], c:[0,1]`. -/
def abcParams : Params := [("a", [0, 1]), ("b", [0, 1]), ("c", [0, 1])]

/-- A state of the loop is stalled when the uncovered set is non-empty but
the test case built from it covers none of it, so the loop body leaves the
uncovered set unchanged. -/
def stalled (sorted : Params) (unc : List Pair) : Bool :=
  !unc.isEmpty &&
    match buildCase unc sorted [] with
    | none => false
    | some tc =>
        decide ((unc.filter fun p => !decide (p ∈ pairsOfCase tc)) = unc)

/-- The loop, started on `unc`, runs `k` productive iterations and then
reaches a stalled state. -/
def reachesStall (sorted : Params) : Nat → List Pair → Bool
  | 0, unc => stalled sorted unc
  | k + 1, unc =>
      !unc.isEmpty &&
        match buildCase unc sorted [] with
        | none => false
        | some tc =>
            reachesStall sorted k
              (unc.filter fun p => !decide (p ∈ pairsOfCase tc))

theorem genLoop_of_stalled (sorted : Params) (unc : List Pair)
    (h : stalled sorted unc = true) :
    ∀ fuel suite, genLoop sorted fuel unc suite = .outOfFuel := by
  unfold stalled at h
  rw [Bool.and_eq_true] at h
  obtain ⟨hne, hrest⟩ := h
  cases hbc : buildCase unc sorted [] with
  | none => rw [hbc] at hrest; simp at hrest
  | some tc =>
      rw [hbc] at hrest
      have hfix : (unc.filter fun p => !decide (p ∈ pairsOfCase tc)) = unc :=
        of_decide_eq_true hrest
      have hne' : unc.isEmpty = false := by
        cases hu : unc.isEmpty with
        | false => rfl
        | true => rw [hu] at hne; simp at hne
      intro fuel
      induction fuel with
      | zero => intro suite; simp [genLoop, hne']
      | succ f ih => intro suite; simp [genLoop, hne', hbc, hfix]; exact ih _

theorem genLoop_of_reachesStall (sorted : Params) :
    ∀ (k : Nat) (unc : List Pair), reachesStall sorted k unc = true →
      ∀ fuel suite, genLoop sorted fuel unc suite = .outOfFuel := by
  intro k
  induction k with
  | zero => exact fun unc h => genLoop_of_stalled sorted unc h
  | succ k ih =>
      intro unc h
      unfold reachesStall at h
      rw [Bool.and_eq_true] at h
      obtain ⟨hne, hrest⟩ := h
      have hne' : unc.isEmpty = false := by
        cases hu : unc.isEmpty with
        | false => rfl
        | true => rw [hu] at hne; simp at hne
      cases hbc : buildCase unc sorted [] with
      | none => rw [hbc] at hrest; simp at hrest
      | some tc =>
          rw [hbc] at hrest
          have hdiv := ih _ hrest
          intro fuel suite
          cases fuel with
          | zero => simp [genLoop, hne']
          | succ f => simp [genLoop, hne', hbc]; exact hdiv _ _

theorem abc_loop_diverges :
    ∀ fuel suite,
      genLoop (sortedParams abcParams) fuel (buildUniverse abcParams) suite =
        .outOfFuel :=
  genLoop_of_reachesStall (sortedParams abcParams) 3 (buildUniverse abcParams)
    (by decide)

theorem abc_generate_diverges :
    ∀ fuel, generate_pairwise_tests abcParams fuel = .outOfFuel := by
  intro fuel
  show genLoop (sortedParams abcParams) fuel (buildUniverse abcParams) [] = _
  exact abc_loop_diverges fuel []

/-- The uncovered set after the third iteration on `abcParams`: the five
pairs the greedy loop can no longer reach (every later iteration assigns
`a := 0`, `b := 0`, `c := 0`). -/
def abcStallUnc : List Pair :=
  [(("a", 1), ("b", 0)), (("a", 1), ("b", 1)), (("a", 1), ("c", 0)),
   (("a", 1), ("c", 1)), (("b", 1), ("c", 0))]

/-- The test case iteration four builds from `abcStallUnc`. -/
def abcStallCase : TestCase := [("a", 0), ("b", 0), ("c", 0)]

/-- C1.  The claim fails on the code: on the input `a:[0,1], b:[0,1],
c:[0,1]` (the repository's own test input) the pair `{(a,1),(b,1)}` is in
the Coverage Universe, yet `generate_pairwise_tests` never returns a suite
at all — for every fuel bound the `while uncovered_pairs` loop is still
running, so no test case covering that pair is ever produced. -/
theorem abc_uncovered_pair_never_covered :
    canonPair ("a", 1) ("b", 1) ∈ buildUniverse abcParams ∧
      ∀ fuel, generate_pairwise_tests abcParams fuel = GenResult.outOfFuel :=
  ⟨by decide, abc_generate_diverges⟩

/-- C2.  The claim fails on the code: starting from the reachable uncovered
set `abcStallUnc` (the loop state after three iterations on `abcParams`),
the next iteration builds `abcStallCase`, which covers zero pairs still
uncovered (the subtraction leaves the set unchanged) — and instead of
failing with a CoverageStall error the loop silently appends the case and
runs forever. -/
theorem abc_stall_not_detected :
    runUnc (sortedParams abcParams) 3 (buildUniverse abcParams) = abcStallUnc ∧
    abcStallUnc ≠ [] ∧
    buildCase abcStallUnc (sortedParams abcParams) [] = some abcStallCase ∧
    (abcStallUnc.filter fun p => !decide (p ∈ pairsOfCase abcStallCase)) =
      abcStallUnc ∧
    ∀ fuel suite,
      genLoop (sortedParams abcParams) fuel abcStallUnc suite =
        GenResult.outOfFuel :=
  ⟨by decide, by decide, by decide, by decide,
   genLoop_of_reachesStall (sortedParams abcParams) 0 abcStallUnc (by decide)⟩

/-- C3.  The claim fails on the code: on `abcParams` the generation loop
does not terminate — iteration four removes zero pairs from the Uncovered
set and the loop repeats the same test case forever, so for every fuel
bound the function is still running. -/
theorem abc_input_nonterminating :
    ∀ fuel, generate_pairwise_tests abcParams fuel = GenResult.outOfFuel :=
  abc_generate_diverges

/-- C9.  The Coverage Universe for `a:[0,1], b:[0,1], c:[0,1]` does have
exactly 12 distinct pairs, but the claim's second half fails on the code:
no suite (of at most 4 cases or otherwise) is ever returned — the loop runs
forever. -/
theorem abc_universe_twelve_but_no_suite :
    (buildUniverse abcParams).length = 12 ∧ (buildUniverse abcParams).Nodup ∧
      ∀ fuel, generate_pairwise_tests abcParams fuel = GenResult.outOfFuel :=
  ⟨by decide, by decide, abc_generate_diverges⟩

/-- C4 counterexample.  With the declared parameter `a` having an empty
domain (and `b : [0]`), `generate_pairwise_tests` does not fail at all: it
silently returns the empty suite, contradicting the claimed InvalidInput
failure with no partial result. -/
theorem empty_domain_silent_suite :
    generate_pairwise_tests [("a", []), ("b", [0])] 5 = GenResult.ok [] := by
  decide

/-- C4 amended.  A parameter with an empty domain is never validated: when
the empty domain leaves the pair universe empty (two parameters, one empty)
the function silently returns the empty suite for every fuel bound, and when
two other parameters have non-empty domains it fails mid-generation with an
IndexError (from `parameters[param_name][0]` on the empty list) while
assembling the first test case. -/
theorem empty_domain_no_validation :
    (∀ fuel,
        generate_pairwise_tests [("a", []), ("b", [0])] fuel =
          GenResult.ok []) ∧
    ∀ fuel,
      generate_pairwise_tests [("a", [0, 1]), ("b", [0, 1]), ("c", [])]
          (fuel + 1) =
        GenResult.indexError := by
  constructor
  · intro fuel
    cases fuel with
    | zero => rfl
    | succ f => rfl
  · intro fuel
    rfl

/-- C5.  Zero parameters give the empty suite; one parameter with domain
`d` gives exactly `d.length` test cases, the i-th assigning the parameter
the i-th domain value. -/
theorem generate_degenerate :
    (∀ fuel, generate_pairwise_tests [] fuel = GenResult.ok []) ∧
    ∀ (n : PName) (d : List Value) (fuel : Nat),
      generate_pairwise_tests [(n, d)] fuel =
          GenResult.ok (d.map fun v => [(n, v)]) ∧
        (d.map fun v => [(n, v)]).length = d.length := by
  refine ⟨fun fuel => rfl, fun n d fuel => ⟨rfl, by simp⟩⟩

theorem selectGo_no_improve (score : Value → Nat) :
    ∀ (rest : List Value) (v : Value),
      (∀ u ∈ rest, score u ≤ score v) →
      selectGo score rest (some v) (score v) = (some v, (score v : Int)) := by
  intro rest
  induction rest with
  | nil => intro v _; rfl
  | cons u rest ih =>
      intro v h
      have hle : ¬((score v : Int) < (score u : Int)) := by
        exact_mod_cast not_lt.mpr (h u (by simp))
      simp only [selectGo, gt_iff_lt, if_neg hle]
      exact ih v fun x hx => h x (by simp [hx])

theorem selectGo_first_argmax (score : Value → Nat) :
    ∀ (rest : List Value) (v : Value),
      ∃ pre w post,
        v :: rest = pre ++ w :: post ∧
        selectGo score rest (some v) (score v) = (some w, (score w : Int)) ∧
        (∀ u ∈ pre, score u < score w) ∧
        (∀ u ∈ post, score u ≤ score w) := by
  intro rest
  induction rest with
  | nil => exact fun v => ⟨[], v, [], rfl, rfl, by simp, by simp⟩
  | cons u rest ih =>
      intro v
      by_cases hvu : score v < score u
      · obtain ⟨pre', w, post', hsplit, heq, hpre, hpost⟩ := ih u
        have hstep : selectGo score (u :: rest) (some v) (score v) =
            selectGo score rest (some u) (score u) := by
          have hlt : (score v : Int) < (score u : Int) := by exact_mod_cast hvu
          simp only [selectGo, gt_iff_lt, if_pos hlt]
        have hvw : score v < score w := by
          cases pre' with
          | nil =>
              simp only [List.nil_append] at hsplit
              injection hsplit with h1 _
              exact h1 ▸ hvu
          | cons p pre'' =>
              rw [List.cons_append] at hsplit
              injection hsplit with h1 _
              exact lt_trans hvu (hpre u (h1 ▸ List.mem_cons_self p pre''))
        refine ⟨v :: pre', w, post', by rw [List.cons_append, ← hsplit],
          hstep.trans heq, ?_, hpost⟩
        intro x hx
        rcases List.mem_cons.mp hx with rfl | hx'
        · exact hvw
        · exact hpre x hx'
      · have hvu' : score u ≤ score v := not_lt.mp hvu
        have hstep : selectGo score (u :: rest) (some v) (score v) =
            selectGo score rest (some v) (score v) := by
          have hle : ¬((score v : Int) < (score u : Int)) := by
            exact_mod_cast not_lt.mpr hvu'
          simp only [selectGo, gt_iff_lt, if_neg hle]
        obtain ⟨pre', w, post', hsplit, heq, hpre, hpost⟩ := ih v
        cases pre' with
        | nil =>
            simp only [List.nil_append] at hsplit
            injection hsplit with h1 h2
            refine ⟨[], v, u :: rest, rfl, ?_, by simp, ?_⟩
            · rw [hstep, heq, ← h1]
            · intro x hx
              rcases List.mem_cons.mp hx with rfl | hx'
              · exact h1 ▸ hvu'
              · exact h1 ▸ hpost x (h2 ▸ hx')
        | cons p pre'' =>
            rw [List.cons_append] at hsplit
            injection hsplit with h1 h2
            subst h1
            have hvw : score v < score w := hpre v (List.mem_cons_self v pre'')
            refine ⟨v :: u :: pre'', w, post', ?_, hstep.trans heq, ?_, hpost⟩
            · rw [h2]; simp
            · intro x hx
              rcases List.mem_cons.mp hx with rfl | hx'
              · exact hvw
              · rcases List.mem_cons.mp hx' with rfl | hx''
                · exact lt_of_le_of_lt hvu' hvw
                · exact hpre x (List.mem_cons_of_mem v hx'')

theorem selectValue_empty_case (unc : List Pair) (n : PName)
    (dom : List Value) (h : dom ≠ []) :
    selectValue unc n dom [] = some (dom.head h) := by
  obtain ⟨v₀, rest, rfl⟩ := List.exists_cons_of_ne_nil h
  have hneg1 : (-1 : Int) < ((countNew unc n v₀ [] : Nat) : Int) :=
    lt_of_lt_of_le (by norm_num) (Int.natCast_nonneg _)
  have hstep0 :
      selectGo (fun v => countNew unc n v ([] : TestCase)) (v₀ :: rest) none
          (-1) =
        selectGo (fun v => countNew unc n v []) rest (some v₀)
          (countNew unc n v₀ []) := by
    simp only [selectGo, gt_iff_lt, if_pos hneg1]
  have hall : ∀ u ∈ rest,
      countNew unc n u ([] : TestCase) ≤ countNew unc n v₀ [] :=
    fun u _ => le_refl 0
  have hni := selectGo_no_improve (fun v => countNew unc n v ([] : TestCase))
    rest v₀ hall
  simp only [selectValue, hstep0, hni]
  rfl

/-- C7.  For a non-empty domain, `selectValue` (the inner value-selection
loop) returns the first domain value attaining the maximum score, where the
score of `v` is the number of still-uncovered pairs it forms with the
already-assigned parameters: every value strictly before the selected one
scores strictly less, and no value in the domain scores more.  When no
parameter has yet been assigned (`tc = []`), the first domain value is
selected. -/
theorem select_value_first_max (unc : List Pair) (n : PName)
    (dom : List Value) (tc : TestCase) (h : dom ≠ []) :
    (∃ pre v post, dom = pre ++ v :: post ∧
      selectValue unc n dom tc = some v ∧
      (∀ u ∈ pre, countNew unc n u tc < countNew unc n v tc) ∧
      (∀ u ∈ dom, countNew unc n u tc ≤ countNew unc n v tc)) ∧
    (tc = [] → selectValue unc n dom tc = some (dom.head h)) := by
  obtain ⟨v₀, rest, rfl⟩ := List.exists_cons_of_ne_nil h
  have hneg1 : (-1 : Int) < ((countNew unc n v₀ tc : Nat) : Int) :=
    lt_of_lt_of_le (by norm_num) (Int.natCast_nonneg _)
  have hstep0 :
      selectGo (fun v => countNew unc n v tc) (v₀ :: rest) none (-1) =
        selectGo (fun v => countNew unc n v tc) rest (some v₀)
          (countNew unc n v₀ tc) := by
    simp only [selectGo, gt_iff_lt, if_pos hneg1]
  constructor
  · obtain ⟨pre, w, post, hsplit, heq, hpre, hpost⟩ :=
      selectGo_first_argmax (fun v => countNew unc n v tc) rest v₀
    refine ⟨pre, w, post, hsplit, ?_, hpre, ?_⟩
    · simp only [selectValue, hstep0, heq]
    · intro u hu
      rw [hsplit] at hu
      rcases List.mem_append.mp hu with hu' | hu''
      · exact le_of_lt (hpre u hu')
      · rcases List.mem_cons.mp hu'' with rfl | hu'''
        · exact le_refl _
        · exact hpost u hu'''
  · intro htc
    subst htc
    exact selectValue_empty_case unc n (v₀ :: rest) h

/-- Witness for `select_value_first_max` at a concrete input: the domain
`[0, 1]` with no parameter yet assigned selects the first value `0`. -/
theorem select_value_first_max_witness :
    ([0, 1] : List Value) ≠ [] ∧ selectValue [] "a" [0, 1] [] = some 0 :=
  ⟨by decide, (select_value_first_max [] "a" [0, 1] [] (by decide)).2 rfl⟩

theorem selectGo_fst_mem (score : Value → Nat) :
    ∀ (dom : List Value) (best : Option Value) (c : Int) (v : Value),
      (selectGo score dom best c).1 = some v → best = some v ∨ v ∈ dom := by
  intro dom
  induction dom with
  | nil => intro best c v h; exact Or.inl h
  | cons u dom ih =>
      intro best c v h
      rw [selectGo] at h
      split at h
      · rcases ih (some u) _ v h with h' | h'
        · exact Or.inr (by simp [Option.some.inj h'])
        · exact Or.inr (List.mem_cons_of_mem u h')
      · rcases ih best c v h with h' | h'
        · exact Or.inl h'
        · exact Or.inr (List.mem_cons_of_mem u h')

theorem selectValue_mem (unc : List Pair) (n : PName) (dom : List Value)
    (tc : TestCase) (v : Value) (h : selectValue unc n dom tc = some v) :
    v ∈ dom := by
  rw [selectValue] at h
  split at h
  · next w heq =>
      rcases selectGo_fst_mem _ dom none (-1) w heq with h' | h'
      · exact absurd h' (by simp)
      · exact (Option.some.inj h) ▸ h'
  · cases dom with
    | nil => simp at h
    | cons u dom => exact (Option.some.inj h) ▸ List.mem_cons_self u dom

theorem buildCase_keys_and_values (unc : List Pair) :
    ∀ (entries : Params) (acc tc : TestCase),
      buildCase unc entries acc = some tc →
      tc.map Prod.fst = acc.map Prod.fst ++ entries.map Prod.fst ∧
      ∀ e ∈ tc, e ∈ acc ∨ ∃ d, (e.1, d) ∈ entries ∧ e.2 ∈ d := by
  intro entries
  induction entries with
  | nil =>
      intro acc tc h
      rw [buildCase] at h
      refine ⟨?_, ?_⟩
      · rw [← Option.some.inj h]; simp
      · intro e he
        exact Or.inl ((Option.some.inj h) ▸ he)
  | cons nd rest ih =>
      intro acc tc h
      obtain ⟨n, dom⟩ := nd
      rw [buildCase] at h
      split at h
      · exact absurd h (by simp)
      · next v hsel =>
          obtain ⟨hkeys, hvals⟩ := ih (acc ++ [(n, v)]) tc h
          constructor
          · rw [hkeys]; simp
          · intro e he
            rcases hvals e he with he' | ⟨d, hd, hv⟩
            · rcases List.mem_append.mp he' with ha | hb
              · exact Or.inl ha
              · have : e = (n, v) := by simpa using hb
                subst this
                exact Or.inr ⟨dom, List.mem_cons_self _ _,
                  selectValue_mem unc n dom acc v hsel⟩
            · exact Or.inr ⟨d, List.mem_cons_of_mem _ hd, hv⟩

theorem buildCase_acc_prefix (unc : List Pair) :
    ∀ (entries : Params) (acc tc : TestCase),
      buildCase unc entries acc = some tc → ∃ tail, tc = acc ++ tail := by
  intro entries
  induction entries with
  | nil =>
      intro acc tc h
      rw [buildCase] at h
      exact ⟨[], by simp [← Option.some.inj h]⟩
  | cons nd rest ih =>
      intro acc tc h
      obtain ⟨n, dom⟩ := nd
      rw [buildCase] at h
      split at h
      · exact absurd h (by simp)
      · next v _ =>
          obtain ⟨tail, htail⟩ := ih (acc ++ [(n, v)]) tc h
          exact ⟨(n, v) :: tail, by simp [htail]⟩

theorem genLoop_suite_spec (sorted : Params) (P : TestCase → Prop)
    (hP : ∀ unc tc, buildCase unc sorted [] = some tc → P tc) :
    ∀ (fuel : Nat) (unc : List Pair) (suite₀ suite : List TestCase),
      (∀ tc ∈ suite₀, P tc) → genLoop sorted fuel unc suite₀ = .ok suite →
      ∀ tc ∈ suite, P tc := by
  intro fuel
  induction fuel with
  | zero =>
      intro unc suite₀ suite h0 heq
      rw [genLoop] at heq
      split at heq
      · exact (GenResult.ok.inj heq) ▸ h0
      · exact absurd heq (by simp)
  | succ f ih =>
      intro unc suite₀ suite h0 heq
      rw [genLoop] at heq
      split at heq
      · exact (GenResult.ok.inj heq) ▸ h0
      · split at heq
        · exact absurd heq (by simp)
        · next tc' hbc =>
            refine ih _ _ _ ?_ heq
            intro tc htc
            rcases List.mem_append.mp htc with h' | h'
            · exact h0 tc h'
            · have : tc = tc' := by simpa using h'
              exact this ▸ hP _ tc' hbc

/-- Concrete two-parameter input on which the generation loop terminates:
`a:[0], b:[1]`. -/
def pairParams : Params := [("a", [0]), ("b", [1])]

/-- The single test case `generate_pairwise_tests pairParams` produces. -/
def pairCase : TestCase := [("a", 0), ("b", 1)]

/-- C6.  Every test case of a returned suite is total and domain-faithful:
its keys are exactly the declared parameter names (a permutation of them,
no omissions and no extras), and each assigned value belongs to the
domain of an entry declared for that name. -/
theorem genLoop_cases_total_in_domain (ps : Params) (fuel : Nat)
    (suite : List TestCase)
    (h : genLoop (sortedParams ps) fuel (buildUniverse ps) [] =
      GenResult.ok suite) :
    ∀ tc ∈ suite,
      List.Perm (tc.map Prod.fst) (ps.map Prod.fst) ∧
      ∀ e ∈ tc, ∃ d, (e.1, d) ∈ ps ∧ e.2 ∈ d := by
  have hperm : List.Perm (sortedParams ps) ps := List.perm_insertionSort _ ps
  intro tc htc
  have hspec := genLoop_suite_spec (sortedParams ps)
    (fun tc => tc.map Prod.fst = (sortedParams ps).map Prod.fst ∧
      ∀ e ∈ tc, ∃ d, (e.1, d) ∈ sortedParams ps ∧ e.2 ∈ d)
    (fun unc tc hbc => by
      obtain ⟨hkeys, hvals⟩ :=
        buildCase_keys_and_values unc (sortedParams ps) [] tc hbc
      refine ⟨by simpa using hkeys, fun e he => ?_⟩
      rcases hvals e he with h' | h'
      · exact absurd h' (by simp)
      · exact h')
    fuel (buildUniverse ps) [] suite (by simp) h tc htc
  refine ⟨hspec.1 ▸ (hperm.map Prod.fst), fun e he => ?_⟩
  obtain ⟨d, hd, hv⟩ := hspec.2 e he
  exact ⟨d, hperm.mem_iff.mp hd, hv⟩

/-- C6.  Every test case of a returned suite is total and domain-faithful:
its keys are exactly the declared parameter names (a permutation of them,
no omissions and no extras), and each assigned value belongs to the
domain of an entry declared for that name. -/
theorem generate_cases_total_in_domain (ps : Params) (fuel : Nat)
    (suite : List TestCase)
    (h : generate_pairwise_tests ps fuel = GenResult.ok suite) :
    ∀ tc ∈ suite,
      List.Perm (tc.map Prod.fst) (ps.map Prod.fst) ∧
      ∀ e ∈ tc, ∃ d, (e.1, d) ∈ ps ∧ e.2 ∈ d := by
  match ps with
  | [] =>
      rw [generate_pairwise_tests] at h
      have hsuite : suite = [] := (GenResult.ok.inj h).symm
      subst hsuite
      intro tc htc
      exact absurd htc (by simp)
  | [(n, d)] =>
      rw [generate_pairwise_tests] at h
      have hsuite : suite = d.map fun v => [(n, v)] :=
        (GenResult.ok.inj h).symm
      subst hsuite
      intro tc htc
      obtain ⟨v, hv, rfl⟩ := List.mem_map.mp htc
      exact ⟨by simp, fun e he => by
        have : e = (n, v) := by simpa using he
        exact this ▸ ⟨d, List.mem_cons_self _ _, hv⟩⟩
  | e1 :: e2 :: rest =>
      rw [generate_pairwise_tests] at h
      exact genLoop_cases_total_in_domain (e1 :: e2 :: rest) fuel suite h

/-- Witness for `generate_cases_total_in_domain`: on `a:[0], b:[1]` the
suite `[[("a",0),("b",1)]]` is returned and its one case is total and
in-domain. -/
theorem generate_cases_total_in_domain_witness :
    List.Perm (pairCase.map Prod.fst) (pairParams.map Prod.fst) ∧
      ∀ e ∈ pairCase, ∃ d, (e.1, d) ∈ pairParams ∧ e.2 ∈ d :=
  generate_cases_total_in_domain pairParams 1 [pairCase] (by decide) pairCase
    (by simp)

/-- C10.  If a suite is returned for an input with at least two parameters
whose domains are all non-empty, then every test case in it assigns the
first parameter of the fixed visitation order (descending domain size,
stable) the first value of that parameter's domain: the first parameter is
scored against an empty partial case, every candidate scores zero, and the
tie goes to the first domain value. -/
theorem first_sorted_param_first_value (ps : Params) (fuel : Nat)
    (suite : List TestCase) (h2 : 2 ≤ ps.length)
    (hdom : ∀ e ∈ ps, e.2 ≠ [])
    (h : generate_pairwise_tests ps fuel = GenResult.ok suite) :
    ∃ n₀ dom₀ rest, sortedParams ps = (n₀, dom₀) :: rest ∧
      ∃ hne : dom₀ ≠ [],
        ∀ tc ∈ suite, tc.head? = some (n₀, dom₀.head hne) := by
  have hlen : (sortedParams ps).length = ps.length :=
    List.length_insertionSort _ ps
  obtain ⟨e₀, rest, hsort⟩ :
      ∃ e₀ rest, sortedParams ps = e₀ :: rest := by
    cases hs : sortedParams ps with
    | nil => rw [hs] at hlen; simp at hlen; omega
    | cons e₀ rest => exact ⟨e₀, rest, rfl⟩
  obtain ⟨n₀, dom₀⟩ := e₀
  have hmem : (n₀, dom₀) ∈ ps := by
    have : (n₀, dom₀) ∈ sortedParams ps := by
      rw [hsort]; exact List.mem_cons_self _ _
    exact (List.perm_insertionSort _ ps).mem_iff.mp this
  have hne : dom₀ ≠ [] := hdom _ hmem
  refine ⟨n₀, dom₀, rest, hsort, hne, ?_⟩
  have hloop : genLoop (sortedParams ps) fuel (buildUniverse ps) [] =
      GenResult.ok suite := by
    match ps, h2, h with
    | e1 :: e2 :: tl, _, h => rw [generate_pairwise_tests] at h; exact h
  exact genLoop_suite_spec (sortedParams ps)
    (fun tc => tc.head? = some (n₀, dom₀.head hne))
    (fun unc tc hbc => by
      rw [hsort, buildCase] at hbc
      split at hbc
      · exact absurd hbc (by simp)
      · next v hsel =>
          have hv : v = dom₀.head hne := by
            have := selectValue_empty_case unc n₀ dom₀ hne
            rw [hsel] at this
            exact Option.some.inj this
          obtain ⟨tail, htail⟩ := buildCase_acc_prefix unc rest _ tc hbc
          rw [htail, hv]
          rfl)
    fuel (buildUniverse ps) [] suite (by simp) hloop

/-- Witness for `first_sorted_param_first_value`: on `a:[0], b:[1]` the
returned case starts with the assignment `a := 0`. -/
theorem first_sorted_param_first_value_witness :
    ∃ n₀ dom₀ rest, sortedParams pairParams = (n₀, dom₀) :: rest ∧
      ∃ hne : dom₀ ≠ [],
        ∀ tc ∈ [pairCase], tc.head? = some (n₀, dom₀.head hne) :=
  first_sorted_param_first_value pairParams 1 [pairCase] (by decide)
    (by decide) (by decide)

theorem dataLt_asymm : ∀ s t, dataLt s t = true → dataLt t s = false := by
  intro s
  induction s with
  | nil =>
      intro t h
      cases t with
      | nil => exact absurd h (by rw [dataLt]; simp)
      | cons b t => rfl
  | cons a s ih =>
      intro t h
      cases t with
      | nil => exact absurd h (by rw [dataLt]; simp)
      | cons b t =>
          rw [dataLt] at h ⊢
          by_cases hab : a.toNat < b.toNat
          · rw [if_neg (by omega), if_pos hab]
          · by_cases hba : b.toNat < a.toNat
            · rw [if_neg hab, if_pos hba] at h; exact absurd h (by simp)
            · rw [if_neg hab, if_neg hba] at h
              rw [if_neg hba, if_neg hab]
              exact ih t h

theorem dataLt_conn :
    ∀ s t, dataLt s t = false → dataLt t s = false → s = t := by
  intro s
  induction s with
  | nil =>
      intro t h _
      cases t with
      | nil => rfl
      | cons b t => exact absurd h (by rw [dataLt]; simp)
  | cons a s ih =>
      intro t h h'
      cases t with
      | nil => exact absurd h' (by rw [dataLt]; simp)
      | cons b t =>
          rw [dataLt] at h h'
          by_cases hab : a.toNat < b.toNat
          · rw [if_pos hab] at h; exact absurd h (by simp)
          · by_cases hba : b.toNat < a.toNat
            · rw [if_pos hba] at h'; exact absurd h' (by simp)
            · rw [if_neg hab, if_neg hba] at h
              rw [if_neg hba, if_neg hab] at h'
              have hchar : a = b := by
                apply Char.ext
                apply UInt32.ext
                have : a.toNat = b.toNat := by omega
                simpa [Char.toNat, UInt32.toNat] using this
              rw [hchar, ih t h h']

theorem dataLt_irrefl (s : List Char) : dataLt s s = false := by
  cases h : dataLt s s with
  | false => rfl
  | true => exact absurd (dataLt_asymm s s h) (by rw [h]; simp)

theorem pvLt_asymm (x y : PV) (h : pvLt x y = true) : pvLt y x = false := by
  rw [pvLt] at h ⊢
  rw [Bool.or_eq_true, Bool.and_eq_true] at h
  rcases h with h | ⟨h1, h2⟩
  · have hstr : x.1 ≠ y.1 := by
      intro he
      rw [he, dataLt_irrefl] at h
      exact absurd h (by simp)
    rw [dataLt_asymm _ _ h, decide_eq_false fun he => hstr he.symm]
    rfl
  · have he : x.1 = y.1 := of_decide_eq_true h1
    have hv : x.2 < y.2 := of_decide_eq_true h2
    have hnv : ¬y.2 < x.2 := Nat.lt_asymm hv
    rw [he, dataLt_irrefl, decide_eq_false hnv]
    simp

theorem pvLt_conn (x y : PV) (h : pvLt x y = false) (h' : pvLt y x = false) :
    x = y := by
  rw [pvLt] at h h'
  rw [Bool.or_eq_false_iff, Bool.and_eq_false_iff] at h h'
  have hdata : x.1.data = y.1.data := dataLt_conn _ _ h.1 h'.1
  have hname : x.1 = y.1 := String.ext hdata
  have hv : x.2 = y.2 := by
    rcases h.2 with h2 | h2
    · exact absurd (decide_eq_true hname) (by rw [h2]; simp)
    · rcases h'.2 with h2' | h2'
      · exact absurd (decide_eq_true hname.symm) (by rw [h2']; simp)
      · have ha := of_decide_eq_false h2
        have hb := of_decide_eq_false h2'
        exact Nat.le_antisymm (Nat.le_of_not_lt hb) (Nat.le_of_not_lt ha)
  exact Prod.ext hname hv

theorem canonPair_comm (x y : PV) : canonPair x y = canonPair y x := by
  rw [canonPair, canonPair]
  cases h1 : pvLt y x with
  | true =>
      rw [if_pos rfl]
      rw [pvLt_asymm y x h1]
      rfl
  | false =>
      rw [if_neg (by simp)]
      cases h2 : pvLt x y with
      | true => rfl
      | false =>
          rw [if_neg (by simp)]
          rw [pvLt_conn x y h2 h1]

theorem canonPair_cases (x y : PV) :
    canonPair x y = (x, y) ∨ canonPair x y = (y, x) := by
  rw [canonPair]
  split
  · exact Or.inr rfl
  · exact Or.inl rfl

theorem canonPair_name_ne (n1 n2 : PName) (v1 v2 : Value) (h : n1 ≠ n2) :
    canonPair (n1, v1) (n2, v2) =
      if dataLt n2.data n1.data then ((n2, v2), (n1, v1))
      else ((n1, v1), (n2, v2)) := by
  rw [canonPair, pvLt]
  have hne : decide ((n2, v2).1 = (n1, v1).1) = false :=
    decide_eq_false fun he => h he.symm
  rw [hne]
  simp only [Bool.false_and, Bool.or_false]

theorem canonPair_inj_of_ne (n1 n2 : PName) (h : n1 ≠ n2)
    (v1 v2 w1 w2 : Value)
    (heq : canonPair (n1, v1) (n2, v2) = canonPair (n1, w1) (n2, w2)) :
    v1 = w1 ∧ v2 = w2 := by
  rw [canonPair_name_ne n1 n2 v1 v2 h, canonPair_name_ne n1 n2 w1 w2 h] at heq
  split at heq <;>
    simpa [Prod.ext_iff, and_comm] using heq

theorem mem_pairsBetween {n1 n2 : PName} {d1 d2 : List Value} {p : Pair} :
    p ∈ pairsBetween n1 d1 n2 d2 ↔
      ∃ v1, v1 ∈ d1 ∧ ∃ v2, v2 ∈ d2 ∧ p = canonPair (n1, v1) (n2, v2) := by
  simp only [pairsBetween, List.mem_flatMap, List.mem_map]
  constructor
  · rintro ⟨v1, hv1, v2, hv2, hpc⟩
    exact ⟨v1, hv1, v2, hv2, hpc.symm⟩
  · rintro ⟨v1, hv1, v2, hv2, hpc⟩
    exact ⟨v1, hv1, v2, hv2, hpc.symm⟩

theorem pairsBetween_names {n1 n2 : PName} {d1 d2 : List Value} {p : Pair}
    (hp : p ∈ pairsBetween n1 d1 n2 d2) :
    (p.1.1 = n1 ∧ p.2.1 = n2) ∨ (p.1.1 = n2 ∧ p.2.1 = n1) := by
  obtain ⟨v1, _, v2, _, rfl⟩ := mem_pairsBetween.mp hp
  rcases canonPair_cases (n1, v1) (n2, v2) with h | h <;> rw [h]
  · exact Or.inl ⟨rfl, rfl⟩
  · exact Or.inr ⟨rfl, rfl⟩

theorem buildUniverse_names :
    ∀ (ps : Params) (p : Pair), p ∈ buildUniverse ps →
      p.1.1 ∈ ps.map Prod.fst ∧ p.2.1 ∈ ps.map Prod.fst := by
  intro ps
  induction ps with
  | nil => intro p hp; exact absurd hp (by simp [buildUniverse])
  | cons e rest ih =>
      obtain ⟨n, d⟩ := e
      intro p hp
      simp only [List.map_cons]
      rw [buildUniverse] at hp
      rcases List.mem_append.mp hp with hp' | hp'
      · obtain ⟨e', he', hpe⟩ := List.mem_flatMap.mp hp'
        have hmem' : e'.1 ∈ rest.map Prod.fst := List.mem_map.mpr ⟨e', he', rfl⟩
        rcases pairsBetween_names hpe with ⟨h1, h2⟩ | ⟨h1, h2⟩
        · exact ⟨by rw [h1]; exact List.mem_cons_self _ _,
            by rw [h2]; exact List.mem_cons_of_mem _ hmem'⟩
        · exact ⟨by rw [h1]; exact List.mem_cons_of_mem _ hmem',
            by rw [h2]; exact List.mem_cons_self _ _⟩
      · obtain ⟨ih1, ih2⟩ := ih p hp'
        exact ⟨List.mem_cons_of_mem _ ih1, List.mem_cons_of_mem _ ih2⟩

theorem pairsBetween_nodup {n1 n2 : PName} {d1 d2 : List Value} (hne : n1 ≠ n2)
    (h1 : d1.Nodup) (h2 : d2.Nodup) : (pairsBetween n1 d1 n2 d2).Nodup := by
  rw [pairsBetween]
  apply List.nodup_flatMap.mpr
  constructor
  · intro v1 _
    have hinj : Function.Injective fun v2 => canonPair (n1, v1) (n2, v2) :=
      fun a b hab => (canonPair_inj_of_ne n1 n2 hne v1 a v1 b hab).2
    exact h2.map hinj
  · have hpw : d1.Pairwise (· ≠ ·) := h1
    apply hpw.imp
    intro a b hab
    intro p hpa hpb
    obtain ⟨v2, _, hv2⟩ := List.mem_map.mp hpa
    obtain ⟨w2, _, hw2⟩ := List.mem_map.mp hpb
    exact hab ((canonPair_inj_of_ne n1 n2 hne a v2 b w2 (hv2.trans hw2.symm)).1)

theorem buildUniverse_nodup :
    ∀ ps : Params, (ps.map Prod.fst).Nodup → (∀ e ∈ ps, e.2.Nodup) →
      (buildUniverse ps).Nodup := by
  intro ps
  induction ps with
  | nil => intro _ _; simp [buildUniverse]
  | cons e rest ih =>
      obtain ⟨n, d⟩ := e
      intro hnames hdoms
      simp only [List.map_cons, List.nodup_cons] at hnames
      obtain ⟨hn, hrest⟩ := hnames
      rw [buildUniverse]
      apply List.Nodup.append
      · apply List.nodup_flatMap.mpr
        constructor
        · intro e' he'
          refine pairsBetween_nodup ?_ (hdoms _ (List.mem_cons_self _ _))
            (hdoms _ (List.mem_cons_of_mem _ he'))
          intro hEq
          exact hn (hEq ▸ List.mem_map.mpr ⟨e', he', rfl⟩)
        · have hpw : rest.Pairwise fun a b => a.1 ≠ b.1 :=
            List.pairwise_map.mp hrest
          apply List.Pairwise.imp_of_mem ?_ hpw
          intro a b ha hb hab
          have hna : n ≠ a.1 := fun hEq => hn (hEq ▸ List.mem_map.mpr ⟨a, ha, rfl⟩)
          have hnb : n ≠ b.1 := fun hEq => hn (hEq ▸ List.mem_map.mpr ⟨b, hb, rfl⟩)
          intro p hpa hpb
          rcases pairsBetween_names hpa with ⟨ha1, ha2⟩ | ⟨ha1, ha2⟩ <;>
            rcases pairsBetween_names hpb with ⟨hb1, hb2⟩ | ⟨hb1, hb2⟩
          · exact hab (ha2.symm.trans hb2)
          · exact hnb (ha1.symm.trans hb1).symm.symm
          · exact hna (hb1.symm.trans ha1)
          · exact hab (ha1.symm.trans hb1)
      · exact ih hrest fun e he => hdoms e (List.mem_cons_of_mem _ he)
      · intro p hp hp'
        obtain ⟨e', he', hpe⟩ := List.mem_flatMap.mp hp
        obtain ⟨hu1, hu2⟩ := buildUniverse_names rest p hp'
        rcases pairsBetween_names hpe with ⟨h1, _⟩ | ⟨_, h2⟩
        · exact hn (h1 ▸ hu1)
        · exact hn (h2 ▸ hu2)

theorem pairsBetween_length (n1 n2 : PName) (d2 : List Value) :
    ∀ d1 : List Value,
      (pairsBetween n1 d1 n2 d2).length = d1.length * d2.length := by
  intro d1
  induction d1 with
  | nil => simp [pairsBetween]
  | cons v d1 ih =>
      have hsplit : pairsBetween n1 (v :: d1) n2 d2 =
          (d2.map fun v2 => canonPair (n1, v) (n2, v2)) ++
            pairsBetween n1 d1 n2 d2 := by
        simp [pairsBetween]
      rw [hsplit, List.length_append, List.length_map, ih, List.length_cons]
      ring

/-- The size the spec assigns to the Coverage Universe: the sum over
unordered parameter-pairs of the product of the domain sizes. -/
def sumPairs : Params → Nat
  | [] => 0
  | (_, d) :: rest =>
      (rest.map fun e => d.length * e.2.length).sum + sumPairs rest

theorem flatMap_pairs_length (n : PName) (d : List Value) :
    ∀ rest : Params,
      (rest.flatMap fun e => pairsBetween n d e.1 e.2).length =
        (rest.map fun e => d.length * e.2.length).sum := by
  intro rest
  induction rest with
  | nil => rfl
  | cons e rest ih =>
      simp only [List.flatMap_cons, List.length_append, List.map_cons,
        List.sum_cons, ih, pairsBetween_length]

theorem buildUniverse_length :
    ∀ ps : Params, (buildUniverse ps).length = sumPairs ps := by
  intro ps
  induction ps with
  | nil => rfl
  | cons e rest ih =>
      obtain ⟨n, d⟩ := e
      rw [buildUniverse, sumPairs, List.length_append, ih,
        flatMap_pairs_length]

theorem mem_buildUniverse :
    ∀ (ps : Params) (p : Pair), p ∈ buildUniverse ps ↔
      ∃ n1 d1 n2 d2 v1 v2, List.Sublist [(n1, d1), (n2, d2)] ps ∧
        v1 ∈ d1 ∧ v2 ∈ d2 ∧ p = canonPair (n1, v1) (n2, v2) := by
  intro ps
  induction ps with
  | nil =>
      intro p
      constructor
      · intro hp; exact absurd hp (by simp [buildUniverse])
      · rintro ⟨n1, d1, n2, d2, v1, v2, hsub, -⟩
        have := List.sublist_nil.mp hsub
        simp at this
  | cons e rest ih =>
      obtain ⟨n, d⟩ := e
      intro p
      rw [buildUniverse]
      constructor
      · intro hp
        rcases List.mem_append.mp hp with hp' | hp'
        · obtain ⟨e', he', hpe⟩ := List.mem_flatMap.mp hp'
          obtain ⟨v1, hv1, v2, hv2, hpc⟩ := mem_pairsBetween.mp hpe
          exact ⟨n, d, e'.1, e'.2, v1, v2,
            List.Sublist.cons₂ _ (List.singleton_sublist.mpr (by simpa using he')),
            hv1, hv2, hpc⟩
        · obtain ⟨n1, d1, n2, d2, v1, v2, hsub, hv1, hv2, hpc⟩ :=
            (ih p).mp hp'
          exact ⟨n1, d1, n2, d2, v1, v2, hsub.cons _, hv1, hv2, hpc⟩
      · rintro ⟨n1, d1, n2, d2, v1, v2, hsub, hv1, hv2, hpc⟩
        cases hsub with
        | cons _ htail =>
            exact List.mem_append.mpr (Or.inr ((ih p).mpr
              ⟨n1, d1, n2, d2, v1, v2, htail, hv1, hv2, hpc⟩))
        | cons₂ _ htail =>
            refine List.mem_append.mpr (Or.inl ?_)
            exact List.mem_flatMap.mpr ⟨(n2, d2), List.singleton_sublist.mp htail,
              mem_pairsBetween.mpr ⟨v1, hv1, v2, hv2, hpc⟩⟩

/-- C8.  The Coverage Universe built from the input is exactly the set of
canonical pairs drawn from two distinct declared parameters (membership
characterization over ordered sublists of the declaration list), the
canonical representation is independent of assignment order, no pair joins
two values of the same parameter, and — for distinct names and
duplicate-free domains — the universe has no duplicates and its size is the
sum over unordered parameter-pairs of the product of the domain sizes. -/
theorem universe_pairs_exact (ps : Params)
    (hnames : (ps.map Prod.fst).Nodup) (hdoms : ∀ e ∈ ps, e.2.Nodup) :
    (∀ x y : PV, canonPair x y = canonPair y x) ∧
    (∀ p : Pair, p ∈ buildUniverse ps ↔
      ∃ n1 d1 n2 d2 v1 v2, List.Sublist [(n1, d1), (n2, d2)] ps ∧
        v1 ∈ d1 ∧ v2 ∈ d2 ∧ p = canonPair (n1, v1) (n2, v2)) ∧
    (∀ p ∈ buildUniverse ps, p.1.1 ≠ p.2.1) ∧
    (buildUniverse ps).Nodup ∧
    (buildUniverse ps).length = sumPairs ps := by
  refine ⟨canonPair_comm, mem_buildUniverse ps, ?_,
    buildUniverse_nodup ps hnames hdoms, buildUniverse_length ps⟩
  intro p hp
  obtain ⟨n1, d1, n2, d2, v1, v2, hsub, -, -, hpc⟩ :=
    (mem_buildUniverse ps p).mp hp
  have hmapsub : List.Sublist [n1, n2] (ps.map Prod.fst) := by
    have := hsub.map Prod.fst
    simpa using this
  have hn12 : n1 ≠ n2 := by
    have hnd : ([n1, n2]).Nodup := hnames.sublist hmapsub
    simpa using hnd
  rcases canonPair_cases (n1, v1) (n2, v2) with hc | hc <;> rw [hpc, hc]
  · exact hn12
  · exact hn12.symm

/-- Witness for `universe_pairs_exact` at the concrete test input: names
and domains are duplicate-free and the universe size matches the sum
formula. -/
theorem universe_pairs_exact_witness :
    (abcParams.map Prod.fst).Nodup ∧ (∀ e ∈ abcParams, e.2.Nodup) ∧
      (buildUniverse abcParams).length = sumPairs abcParams :=
  ⟨by decide, by decide,
    (universe_pairs_exact abcParams (by decide) (by decide)).2.2.2.2⟩

end Paiwise
